import Mathlib

/-!
# Verification of the Super-Cardano-node ledger against its specification

This file gives a shallow embedding of the parts of the repository that the
specification talks about, translated from the Rust sources:

* `src/ledger.rs`   — UTXO ledger, transactions, blocks, certificates,
  stake pools, chain selection;
* `src/chaindb.rs`  — on-disk chain store (`rollback_to`, `block_ids`);
* `src/protocol/hard_fork_combinator.rs` and `src/protocol.rs` — era
  dispatcher (`check_transition`);
* `src/consensus.rs` — consensus-level block validation.

Rust `u64`/`u32` values are modelled as `Nat`: the embedded code only ever
compares, looks up and copies these values, except where noted (the reward
computation marks the one place where a cast truncates, and writes the
`% 2^64` explicitly).  Rust `HashMap`s are modelled as association lists
with the usual lookup/insert/remove operations; `HashMap` equality in the
specification ("pointwise equal") is lookup equality.  Rust `String`s are
Lean `String`s, and the byte vectors `Vec<u8>` are `List Nat` (only their
lengths are ever inspected).
-/

namespace SuperCardano

/-! ## Association-list model of `std::collections::HashMap` -/

/-- Lookup in an association-list map (model of `HashMap::get`). -/
def hmGet {κ ν : Type} [DecidableEq κ] (m : List (κ × ν)) (k : κ) : Option ν :=
  (m.find? (fun p => p.1 = k)).map Prod.snd

/-- Model of `HashMap::insert`: the new binding replaces any old one. -/
def hmInsert {κ ν : Type} [DecidableEq κ] (k : κ) (v : ν) (m : List (κ × ν)) :
    List (κ × ν) :=
  (k, v) :: m.filter (fun p => ¬ p.1 = k)

/-- Model of `HashMap::remove` (the removed value is not used by the code). -/
def hmRemove {κ ν : Type} [DecidableEq κ] (k : κ) (m : List (κ × ν)) :
    List (κ × ν) :=
  m.filter (fun p => ¬ p.1 = k)

/-- Model of `HashMap::contains_key`. -/
def hmContains {κ ν : Type} [DecidableEq κ] (m : List (κ × ν)) (k : κ) : Bool :=
  (hmGet m k).isSome

/-! ## Data model (`src/ledger.rs`) -/

/-- A native asset (`struct Asset`). -/
structure Asset where
  policy_id : String
  asset_name : String
  amount : Nat
deriving DecidableEq, Repr

/-- Rust `struct TxOutput`: address, ADA amount, optional multi-asset bundle. -/
structure TxOutput where
  address : String
  amount : Nat
  assets : Option (List Asset)
deriving DecidableEq, Repr

/-- Rust `struct TxInput`: reference to a previous transaction output. -/
structure TxInput where
  prev_tx : Nat
  index : Nat
deriving DecidableEq, Repr

/-- Rust `struct StakePoolRegistration`.  The `margin: f64` field is carried
opaquely as a `Float`; the embedded code never reads it. -/
structure StakePoolRegistration where
  pool_id : String
  owner : String
  pledge : Nat
  cost : Nat
  margin : Float
  reward_account : String
deriving Repr

/-- Rust `struct StakePoolRetirement`. -/
structure StakePoolRetirement where
  pool_id : String
  retirement_epoch : Nat
deriving DecidableEq, Repr

/-- Rust `struct DelegationCertificate`. -/
structure DelegationCertificate where
  delegator : String
  pool_id : String
deriving DecidableEq, Repr

/-- Rust `enum Certificate`. -/
inductive Certificate where
  | poolRegistration (reg : StakePoolRegistration)
  | poolRetirement (ret : StakePoolRetirement)
  | delegation (deleg : DelegationCertificate)
deriving Repr

/-- Rust `struct StakePool`: registration data plus activity/retirement state. -/
structure StakePool where
  registration : StakePoolRegistration
  active : Bool
  retirement_epoch : Option Nat
deriving Repr

/-- Rust `struct PlutusScript`, `struct PlutusDatum`, `struct PlutusRedeemer`
and `struct PlutusWitness` (Alonzo era).  Byte vectors are `List Nat`. -/
structure PlutusScript where
  code : List Nat
deriving DecidableEq, Repr

structure PlutusDatum where
  data : List Nat
deriving DecidableEq, Repr

structure PlutusRedeemer where
  data : List Nat
deriving DecidableEq, Repr

structure PlutusWitness where
  script : PlutusScript
  datum : PlutusDatum
  redeemer : PlutusRedeemer
  execution_units : Nat × Nat
deriving DecidableEq, Repr

/-- Rust `struct Transaction`. -/
structure Transaction where
  id : Nat
  inputs : List TxInput
  outputs : List TxOutput
  certificates : List Certificate
  plutus_witnesses : List PlutusWitness
deriving Repr

/-- Rust `struct BlockHeader`. -/
structure BlockHeader where
  slot : Nat
  epoch : Nat
  leader : String
  vrf_proof : List Nat
  kes_signature : List Nat
deriving DecidableEq, Repr

/-- Rust `struct Block`. -/
structure Block where
  id : Nat
  header : BlockHeader
  transactions : List Transaction
deriving Repr

/-- Rust `struct LedgerState`: the UTXO set and staking maps.  Each Rust
`HashMap` becomes an association list. -/
structure LedgerState where
  utxos : List ((Nat × Nat) × TxOutput)
  stake_distribution : List (String × Nat)
  delegations : List (String × String)
  stake_pools : List (String × StakePool)
  pool_retirements : List (String × Nat)
  rewards : List (String × Nat)
deriving Repr

/-- The empty ledger state built by `Ledger::new`. -/
def emptyState : LedgerState :=
  { utxos := [], stake_distribution := [], delegations := [],
    stake_pools := [], pool_retirements := [], rewards := [] }

/-! ## `Ledger::apply_transaction` and `Ledger::apply_block`

`Ledger` wraps a `LedgerState` (plus a tracer that carries no ledger
data); the two methods below read and write only `self.state.utxos`, so
they are embedded as functions on `LedgerState`.  The returned `Bool` is
the Rust return value. -/

/-- Method `Ledger::apply_transaction`: first check that every input is present
in the UTXO set (the Rust loop returns `false` at the first absent one),
then remove all spent inputs, then insert each output under
`(tx.id, index)`. -/
def applyTransaction (tx : Transaction) (s : LedgerState) :
    Bool × LedgerState :=
  if tx.inputs.all (fun i => hmContains s.utxos (i.prev_tx, i.index)) then
    let utxos1 := tx.inputs.foldl
      (fun m i => hmRemove (i.prev_tx, i.index) m) s.utxos
    let utxos2 := tx.outputs.enum.foldl
      (fun m io => hmInsert (tx.id, io.1) io.2 m) utxos1
    (true, { s with utxos := utxos2 })
  else
    (false, s)

/-- Method `Ledger::apply_block`: apply each transaction in listed order,
returning `false` at the first failure (the state reached so far is
kept).  This is the loop body of `apply_block`, recursing over the list
of transactions. -/
def applyTxs (txs : List Transaction) (s : LedgerState) :
    Bool × LedgerState :=
  match txs with
  | [] => (true, s)
  | tx :: rest =>
    let r := applyTransaction tx s
    if r.1 then applyTxs rest r.2 else (false, r.2)

/-- Method `Ledger::apply_block` itself. -/
def applyBlock (b : Block) (s : LedgerState) : Bool × LedgerState :=
  applyTxs b.transactions s

/-! ## `LedgerState::apply_certificate`, `process_pool_retirements`,
`distribute_rewards` -/

/-- Method `LedgerState::apply_certificate`.  Returns the updated state, or
the Rust error string; every `Err` branch fires before any mutation, so
the error case carries no state. -/
def applyCertificate (cert : Certificate) (current_epoch : Nat)
    (s : LedgerState) : Except String LedgerState :=
  match cert with
  | .poolRegistration reg =>
    let pool : StakePool :=
      { registration := reg, active := true, retirement_epoch := none }
    .ok { s with stake_pools := hmInsert reg.pool_id pool s.stake_pools }
  | .poolRetirement ret =>
    match hmGet s.stake_pools ret.pool_id with
    | some pool =>
      if pool.active ∧ ret.retirement_epoch > current_epoch then
        .ok { s with
          stake_pools := hmInsert ret.pool_id
            { pool with retirement_epoch := some ret.retirement_epoch }
            s.stake_pools,
          pool_retirements :=
            hmInsert ret.pool_id ret.retirement_epoch s.pool_retirements }
      else
        .error "Invalid retirement epoch or pool not active"
    | none => .error "Pool not found"
  | .delegation deleg =>
    match hmGet s.stake_pools deleg.pool_id with
    | some pool =>
      if pool.active then
        .ok { s with
          delegations := hmInsert deleg.delegator deleg.pool_id s.delegations }
      else
        .error "Cannot delegate to inactive pool"
    | none => .error "Pool not found"

/-- The per-pool effect of `process_pool_retirements`: a pool whose
`retirement_epoch` is due (`≤ current_epoch`) is deactivated, any other
pool is unchanged. -/
def retirePool (current_epoch : Nat) (pool : StakePool) : StakePool :=
  match pool.retirement_epoch with
  | some epoch =>
    if epoch ≤ current_epoch then { pool with active := false } else pool
  | none => pool

/-- Method `LedgerState::process_pool_retirements`: deactivate every pool
whose `retirement_epoch` is due and retain only the `pool_retirements`
entries with epoch `> current_epoch`.  The Rust code first collects the
retiring ids and then mutates them; entry-wise the result is the map
below. -/
def processPoolRetirements (current_epoch : Nat) (s : LedgerState) :
    LedgerState :=
  { s with
    stake_pools := s.stake_pools.map
      (fun p => (p.1, retirePool current_epoch p.2)),
    pool_retirements :=
      s.pool_retirements.filter (fun p => p.2 > current_epoch) }

/-- Method `LedgerState::distribute_rewards`: no-op when the total stake or
the reward amount is zero, otherwise credit each staker
`stake * total_rewards / total_stake` (computed in `u128`, truncated to
`u64` — the `% 2^64` marks the `as u64` cast; the `+=` is `u64` addition). -/
def distributeRewards (total_rewards : Nat) (s : LedgerState) : LedgerState :=
  let total_stake := (s.stake_distribution.map Prod.snd).sum
  if total_stake = 0 ∨ total_rewards = 0 then s
  else
    { s with
      rewards := s.stake_distribution.foldl (fun rw p =>
        let reward := (p.2 * total_rewards / total_stake) % 2 ^ 64
        hmInsert p.1 (((hmGet rw p.1).getD 0 + reward) % 2 ^ 64) rw) s.rewards }

/-! ## Block validation (`src/ledger.rs` and `src/consensus.rs`)

`Ledger::validate_block` delegates per-transaction validation to
`validate_transaction_with_protocol`, which first asks the protocol
(the current era logic) to validate a *stub* wallet transaction
`wallet::Transaction {}` — every era logic in `src/protocol/` (Allegra,
Mary, Conway, Babbage) returns `true` for it — and then rejects any
transaction with a zero-amount output. -/

/-- The era-logic implementations reachable from
`Protocol::validate_transaction` (`src/protocol/{allegra,mary,conway,babbage}.rs`). -/
inductive EraLogicImpl where
  | allegra
  | mary
  | conway
  | babbage
deriving DecidableEq, Repr

/-- Rust `wallet::Transaction` is a unit struct (`src/wallet/transaction.rs`). -/
structure WalletTransaction where
deriving DecidableEq, Repr

/-- Each era logic's `validate_transaction(&self, tx: &wallet::Transaction)`
returns `true` unconditionally (see the four impls in `src/protocol/`). -/
def eraLogicValidateTx (_era : EraLogicImpl) (_tx : WalletTransaction) : Bool :=
  true

/-- Method `Ledger::validate_transaction_with_protocol`. -/
def validateTransactionWithProtocol (era : EraLogicImpl) (tx : Transaction) :
    Bool :=
  if ¬ eraLogicValidateTx era {} then false
  else if tx.outputs.any (fun o => o.amount = 0) then false
  else true

/-- Method `Ledger::validate_block` (`src/ledger.rs:111`): reject when the
slot is 0 or the leader is empty, then check every transaction with
`validate_transaction_with_protocol`.  No VRF/KES check is performed
(the source marks it `TODO`). -/
def ledgerValidateBlock (era : EraLogicImpl) (b : Block) : Bool :=
  if b.header.slot = 0 ∨ b.header.leader = "" then false
  else b.transactions.all (fun tx => validateTransactionWithProtocol era tx)

/-- Method `Consensus::validate_block` (`src/consensus.rs:154`): checks
slot, leader and the 32-byte lengths of the VRF proof and KES signature,
but no transactions. -/
def consensusValidateBlock (b : Block) : Bool :=
  if b.header.slot = 0 ∨ b.header.leader = "" then false
  else if b.header.vrf_proof.length ≠ 32 ∨ b.header.kes_signature.length ≠ 32
    then false
  else true

/-! ## Chain selection (`select_chain`, `src/ledger.rs:384`) -/

/-- A candidate chain (`struct Chain`). -/
structure Chain where
  blocks : List Block
deriving Repr

/-- Count of unique block ids along a chain — the Rust code collects the
ids into a `HashSet` and takes its size. -/
def chainDensity (c : Chain) : Nat :=
  ((c.blocks.map Block.id).dedup).length

/-- Total transaction count across the chain's blocks. -/
def chainTxs (c : Chain) : Nat :=
  (c.blocks.map (fun b => b.transactions.length)).sum

/-- Tip block id, `0` for an empty chain
(`a.blocks.last().map(|b| b.id).unwrap_or(0)`). -/
def chainTip (c : Chain) : Nat :=
  (c.blocks.getLast?.map Block.id).getD 0

/-- The comparator closure passed to `max_by` in `select_chain`: longer
chain first, then higher density, then more transactions, and finally
`tip_b.cmp(&tip_a)` so that the lower tip id compares greater. -/
def chainCmp (a b : Chain) : Ordering :=
  if a.blocks.length ≠ b.blocks.length then
    compare a.blocks.length b.blocks.length
  else if chainDensity a ≠ chainDensity b then
    compare (chainDensity a) (chainDensity b)
  else if chainTxs a ≠ chainTxs b then
    compare (chainTxs a) (chainTxs b)
  else
    compare (chainTip b) (chainTip a)

/-- Rust `Iterator::max_by` keeps the accumulator only when it compares
`Greater` (so the *last* of equally-maximal elements wins). -/
def selectChain (chains : List Chain) : Option Chain :=
  chains.foldl (fun acc x =>
    match acc with
    | none => some x
    | some a => if chainCmp a x = .gt then some a else some x) none

/-! ## Hard fork combinator (`src/protocol/hard_fork_combinator.rs`)

`HardForkCombinator` keeps the current era and a `BTreeMap<u64,
HardForkTransition>` of scheduled transitions.  The `BTreeMap` is
modelled as a list of `(activation_epoch, era)` pairs sorted by strictly
increasing epoch (`transSorted` below states the `BTreeMap` key
invariant); `iter().next()` is then the head of the list.  The
`Arc<dyn EraLogic>` stored next to each era is determined by the era and
carries no data of its own, so it is not modelled separately.  `Era` is
the era enumeration of `src/protocol.rs`. -/

/-- Rust `enum Era` (`src/protocol.rs:28`). -/
inductive Era where
  | byron
  | shelley
  | allegra
  | mary
  | alonzo
  | conway
deriving DecidableEq, Repr

/-- Rust `struct HardForkCombinator` (current era plus scheduled
transitions; see the module comment for the `BTreeMap` encoding). -/
structure HardForkCombinator where
  current_era : Era
  transitions : List (Nat × Era)
deriving DecidableEq, Repr

/-- The `BTreeMap` invariant: transition epochs strictly increase along
the list. -/
def transSorted (s : HardForkCombinator) : Prop :=
  List.Chain' (· < ·) (s.transitions.map Prod.fst)

/-- Method `HardForkCombinator::check_transition` — the era dispatcher's
`tick`.  It looks at the *earliest* scheduled entry only; if its epoch is
due (`current_epoch >= epoch`), it adopts that era and removes the entry.
There is no loop: at most one transition is performed per call. -/
def checkTransition (s : HardForkCombinator) (current_epoch : Nat) :
    HardForkCombinator :=
  match s.transitions with
  | [] => s
  | (epoch, era) :: rest =>
    if current_epoch ≥ epoch then
      { current_era := era, transitions := rest }
    else s

/-! ## ChainDB (`src/chaindb.rs`)

The store is modelled as the list of file names in the database
directory, each file name a `List Char` (the contents of the files never
matter to the claims).  `rollback_to` keeps exactly the files the Rust
loop does not remove; `block_ids` parses names of the form
`block_<n>.json`.  The Rust string operations `split`, `starts_with`,
`ends_with`, `trim_start_matches`, `trim_end_matches` and
`str::parse::<u64>` are embedded below on `List Char`. -/

/-- Rust `str::split(c)`: split at every occurrence of `c`; adjacent
separators and separators at either end produce empty segments, and the
result is never empty. -/
def splitOnChar (c : Char) : List Char → List (List Char)
  | [] => [[]]
  | x :: xs =>
    match splitOnChar c xs with
    | [] => if x = c then [[], []] else [[x]]
    | h :: t => if x = c then [] :: h :: t else (x :: h) :: t

/-- Iteration core of `str::trim_start_matches(pat)`: strip the pattern
from the front while it is a (non-empty) prefix.  Each successful strip
shortens the list by at least one character, so `l.length` steps of fuel
always suffice; the fuel makes the recursion structural. -/
def trimStartAux (pat : List Char) : Nat → List Char → List Char
  | 0, l => l
  | fuel + 1, l =>
    if pat.isPrefixOf l ∧ pat ≠ [] then
      trimStartAux pat fuel (l.drop pat.length)
    else l

/-- Rust `str::trim_start_matches(pat)`: repeatedly remove the pattern
from the front while it is a prefix. -/
def trimStartMatches (pat : List Char) (l : List Char) : List Char :=
  trimStartAux pat l.length l

/-- Rust `str::trim_end_matches(pat)`: repeatedly remove the pattern from
the back while it is a suffix. -/
def trimEndMatches (pat : List Char) (l : List Char) : List Char :=
  (trimStartMatches pat.reverse l.reverse).reverse

/-- Decimal value of a digit string (what `u64::from_str` accumulates). -/
def digitsVal (l : List Char) : Nat :=
  l.foldl (fun a c => a * 10 + (c.toNat - 48)) 0

/-- Rust `str::parse::<u64>()`: an optional leading `+`, then a nonempty
run of ASCII digits whose value fits in a `u64`. -/
def parseU64 (l : List Char) : Option Nat :=
  let l' := if l.head? = some '+' then l.tail else l
  if l' ≠ [] ∧ l'.all Char.isDigit ∧ digitsVal l' < 2 ^ 64 then
    some (digitsVal l')
  else none

/-- The number `rollback_to` extracts from a file name:
`fname.split('_').nth(1).and_then(|s| s.split('.').next())`, parsed as
`u64`. -/
def rollbackNum (fname : List Char) : Option Nat :=
  match (splitOnChar '_' fname).get? 1 with
  | some seg => parseU64 ((splitOnChar '.' seg).headD [])
  | none => none

/-- Method `ChainDB::rollback_to(id)`: remove every file whose extracted
number exceeds `id`; files whose name does not parse are kept. -/
def rollbackTo (id : Nat) (files : List (List Char)) : List (List Char) :=
  files.filter (fun f =>
    match rollbackNum f with
    | some num => ¬ num > id
    | none => true)

/-- The characters of `"block_"`. -/
def blockPre : List Char := ['b', 'l', 'o', 'c', 'k', '_']

/-- The characters of `"state_"`. -/
def statePre : List Char := ['s', 't', 'a', 't', 'e', '_']

/-- The characters of `".json"`. -/
def jsonSuf : List Char := ['.', 'j', 's', 'o', 'n']

/-- The id `block_ids` extracts from a file name: require the `block_`
prefix and `.json` suffix, strip them (`trim_start_matches` /
`trim_end_matches` strip *repeatedly*), and parse the remainder. -/
def blockIdNum (fname : List Char) : Option Nat :=
  if blockPre.isPrefixOf fname ∧ jsonSuf.isSuffixOf fname then
    parseU64 (trimEndMatches jsonSuf (trimStartMatches blockPre fname))
  else none

/-- Method `ChainDB::block_ids()`: collect the parsed ids of all
`block_*.json` files and sort them (`sort_unstable`). -/
def blockIds (files : List (List Char)) : List Nat :=
  (files.filterMap blockIdNum).insertionSort (· ≤ ·)

/-- Coinbase transaction used to witness C10. -/
def coinbaseTx : Transaction :=
  { id := 1, inputs := [],
    outputs := [{ address := "A", amount := 100, assets := none }],
    certificates := [], plutus_witnesses := [] }

/-- The state holding the single UTXO `(1, 0)`, for C2. -/
def dupState : LedgerState :=
  { emptyState with
    utxos := [((1, 0), { address := "A", amount := 100, assets := none })] }

/-- A transaction listing the input `(1, 0)` twice, for C2. -/
def dupTx : Transaction :=
  { id := 2,
    inputs := [{ prev_tx := 1, index := 0 }, { prev_tx := 1, index := 0 }],
    outputs := [{ address := "C", amount := 100, assets := none }],
    certificates := [], plutus_witnesses := [] }

/-- State with a UTXO at `(7, 0)`, spendable by the self-referencing
transaction `selfTx` below (C3). -/
def selfState : LedgerState :=
  { emptyState with
    utxos := [((7, 0), { address := "A", amount := 1, assets := none })] }

/-- A transaction whose id equals the `prev_tx` of its own input, so that
the output insertion re-creates the just-spent key (C3). -/
def selfTx : Transaction :=
  { id := 7, inputs := [{ prev_tx := 7, index := 0 }],
    outputs := [{ address := "B", amount := 1, assets := none }],
    certificates := [], plutus_witnesses := [] }

/-- Witness for the amended C3: a spend of a present UTXO whose input key
differs from every output key. -/
def spendTx : Transaction :=
  { id := 2, inputs := [{ prev_tx := 1, index := 0 }],
    outputs := [{ address := "B", amount := 100, assets := none }],
    certificates := [], plutus_witnesses := [] }

/-- A block whose first transaction succeeds (creating UTXO `(1, 0)`) and
whose second fails (spending the absent `(9, 9)`), for C1. -/
def blkC1 : Block :=
  { id := 1,
    header := { slot := 1, epoch := 0, leader := "L", vrf_proof := [],
                kes_signature := [] },
    transactions :=
      [{ id := 1, inputs := [],
         outputs := [{ address := "A", amount := 50, assets := none }],
         certificates := [], plutus_witnesses := [] },
       { id := 2, inputs := [{ prev_tx := 9, index := 9 }], outputs := [],
         certificates := [], plutus_witnesses := [] }] }

/-! ## Claim C6: block validation -/

/-- A block with a well-formed slot and leader but *empty* VRF proof and
KES signature, and no transactions. -/
def blkBadProof : Block :=
  { id := 1,
    header := { slot := 1, epoch := 0, leader := "L", vrf_proof := [],
                kes_signature := [] },
    transactions := [] }

/-! ## Claim C7: era dispatcher `tick` -/

/-- A combinator with two transitions both due at epoch 5, for C7. -/
def hfcTwo : HardForkCombinator :=
  { current_era := .byron, transitions := [(1, .shelley), (2, .alonzo)] }

/-- A combinator with a single due transition, to witness the amended
C7. -/
def hfcOne : HardForkCombinator :=
  { current_era := .byron, transitions := [(1, .shelley), (5, .alonzo)] }

/-! ## Claims C4 and C5: staking invariants -/

/-- Invariant I3 as the specification states it: every delegation points
at an *existing, active* pool. -/
def I3active (s : LedgerState) : Prop :=
  ∀ d p, hmGet s.delegations d = some p →
    ∃ pool, hmGet s.stake_pools p = some pool ∧ pool.active = true

/-- The weakening of I3 that the code actually maintains: every
delegation points at an existing pool (active or not). -/
def I3exists (s : LedgerState) : Prop :=
  ∀ d p, hmGet s.delegations d = some p →
    (hmGet s.stake_pools p).isSome = true

/-- Invariant I4 as the specification states it: every `pool_retirements`
entry is mirrored in the pool's `retirement_epoch`. -/
def I4spec (s : LedgerState) : Prop :=
  ∀ p e, hmGet s.pool_retirements p = some e →
    ∃ pool, hmGet s.stake_pools p = some pool ∧
      pool.retirement_epoch = some e

/-- The pool-registration certificate used in concrete states below. -/
def regP : StakePoolRegistration :=
  { pool_id := "p", owner := "o", pledge := 1000, cost := 340,
    margin := 0.05, reward_account := "r" }

/-- Pool `p` freshly registered: active, no retirement scheduled. -/
def poolP : StakePool :=
  { registration := regP, active := true, retirement_epoch := none }

/-- Pool `p` with retirement scheduled for epoch 1. -/
def poolPRet : StakePool :=
  { registration := regP, active := true, retirement_epoch := some 1 }

/-- Pool `p` deactivated after its retirement was processed. -/
def poolPDead : StakePool :=
  { registration := regP, active := false, retirement_epoch := some 1 }

/-- State after registering pool `p`. -/
def c4s1 : LedgerState := { emptyState with stake_pools := [("p", poolP)] }

/-- State after additionally delegating `d` to `p`. -/
def c4s2 : LedgerState := { c4s1 with delegations := [("d", "p")] }

/-- State after additionally scheduling `p`'s retirement for epoch 1. -/
def c4s3 : LedgerState :=
  { c4s2 with
    stake_pools := [("p", poolPRet)],
    pool_retirements := [("p", 1)] }

/-- State after processing retirements at epoch 1: `p` is inactive but
the delegation of `d` to `p` is still recorded. -/
def c4s4 : LedgerState :=
  { c4s3 with stake_pools := [("p", poolPDead)], pool_retirements := [] }

/-- Pool `p` with retirement scheduled for epoch 5. -/
def poolPRet5 : StakePool :=
  { registration := regP, active := true, retirement_epoch := some 5 }

/-- State after registering `p` and scheduling its retirement for epoch
5 (at epoch 0). -/
def c5s2 : LedgerState :=
  { c4s1 with
    stake_pools := [("p", poolPRet5)],
    pool_retirements := [("p", 5)] }

/-- State after *re-registering* `p`: its `retirement_epoch` is reset to
`None`, but `pool_retirements` still says epoch 5. -/
def c5s3 : LedgerState := { c5s2 with stake_pools := [("p", poolP)] }

/-! ## Claim C8: chain selection -/

/-- The strict part of the specification's chain order: `b` beats `a`
when it has more blocks; on a tie, more unique block ids; then more
transactions; then a *lower* tip id. -/
def specLt (a b : Chain) : Prop :=
  a.blocks.length < b.blocks.length ∨
  (a.blocks.length = b.blocks.length ∧
    (chainDensity a < chainDensity b ∨
      (chainDensity a = chainDensity b ∧
        (chainTxs a < chainTxs b ∨
          (chainTxs a = chainTxs b ∧ chainTip b < chainTip a)))))

/-- The specification's chain order: `a` is no better than `b`. -/
def specLe (a b : Chain) : Prop :=
  specLt a b ∨
  (a.blocks.length = b.blocks.length ∧ chainDensity a = chainDensity b ∧
    chainTxs a = chainTxs b ∧ chainTip a = chainTip b)

/-! ## Claim C9: ChainDB rollback

`append_block` writes files named `block_{id}.json` and
`state_{id}.json` (`format!` prints the `u64` id in decimal).  The
canonical file names are modelled by `dbFname` below; the amended claim
is proved for stores consisting of such canonical names. -/

/-- Decimal digit characters of `n`, most significant first — the
characters `format!("{}", n)` produces for a `u64`. -/
def natChars (n : Nat) : List Char :=
  if n = 0 then ['0'] else ((Nat.digits 10 n).map Nat.digitChar).reverse

/-- The canonical file name written by `ChainDB::append_block`:
`block_{n}.json` when `isBlock`, else `state_{n}.json`. -/
def dbFname (isBlock : Bool) (n : Nat) : List Char :=
  (if isBlock then blockPre else statePre) ++ natChars n ++ jsonSuf

/-- The pathological file name `block_block_7.json`: `block_ids` strips
the `block_` prefix *repeatedly* and reports id 7, while `rollback_to`
splits at the first `_`, fails to parse `block`, and keeps the file. -/
def weirdFile : List Char :=
  ['b', 'l', 'o', 'c', 'k', '_', 'b', 'l', 'o', 'c', 'k', '_', '7', '.',
   'j', 's', 'o', 'n']

/-- A canonical three-file store for the C9 witness. -/
def storeW : List (List Char) :=
  [dbFname true 1, dbFname false 2, dbFname true 3]

/-- A two-block chain for the C8 witness. -/
def chainB2 : Chain :=
  { blocks := [blkBadProof, { blkBadProof with id := 2 }] }

theorem hmGet_filter_ne {κ ν : Type} [DecidableEq κ] (k k' : κ)
    (m : List (κ × ν)) :
    hmGet (m.filter (fun p => ¬ p.1 = k)) k' =
      if k' = k then none else hmGet m k' := by
  induction m with
  | nil => simp [hmGet]
  | cons p m ih =>
    by_cases hp : p.1 = k
    · rw [show (p :: m).filter (fun p => ¬ p.1 = k) = m.filter (fun p => ¬ p.1 = k)
        from by simp [List.filter_cons, hp], ih]
      by_cases h : k' = k
      · simp [h]
      · have hpk : ¬ p.1 = k' := fun hk => h (by rw [← hk, hp])
        simp [h, hmGet, List.find?_cons_of_neg, hpk]
    · rw [show (p :: m).filter (fun p => ¬ p.1 = k) = p :: m.filter (fun p => ¬ p.1 = k)
        from by simp [List.filter_cons, hp]]
      by_cases hk : p.1 = k'
      · have h : ¬ k' = k := fun hh => hp (by rw [hk, hh])
        simp [hmGet, List.find?_cons_of_pos, hk, h]
      · have h1 : hmGet (p :: m.filter (fun p => ¬ p.1 = k)) k' =
            hmGet (m.filter (fun p => ¬ p.1 = k)) k' := by
          simp [hmGet, List.find?_cons_of_neg, hk]
        have h2 : hmGet (p :: m) k' = hmGet m k' := by
          simp [hmGet, List.find?_cons_of_neg, hk]
        rw [h1, h2, ih]

theorem hmGet_hmInsert {κ ν : Type} [DecidableEq κ] (k k' : κ) (v : ν)
    (m : List (κ × ν)) :
    hmGet (hmInsert k v m) k' = if k' = k then some v else hmGet m k' := by
  by_cases h : k' = k
  · subst h
    simp [hmGet, hmInsert, List.find?_cons_of_pos]
  · have h1 : hmGet (hmInsert k v m) k' =
        hmGet (m.filter (fun p => ¬ p.1 = k)) k' := by
      simp only [hmInsert, hmGet]
      rw [List.find?_cons_of_neg]
      simp
      intro hk
      exact h hk.symm
    rw [h1, hmGet_filter_ne, if_neg h, if_neg h]

theorem hmGet_hmRemove {κ ν : Type} [DecidableEq κ] (k k' : κ)
    (m : List (κ × ν)) :
    hmGet (hmRemove k m) k' = if k' = k then none else hmGet m k' :=
  hmGet_filter_ne k k' m

/-! ## Helper lemmas about `apply_transaction` -/

theorem applyTransaction_keeps_staking (tx : Transaction) (s : LedgerState) :
    (applyTransaction tx s).2.stake_distribution = s.stake_distribution ∧
    (applyTransaction tx s).2.delegations = s.delegations ∧
    (applyTransaction tx s).2.stake_pools = s.stake_pools ∧
    (applyTransaction tx s).2.pool_retirements = s.pool_retirements ∧
    (applyTransaction tx s).2.rewards = s.rewards := by
  rw [applyTransaction]
  by_cases h : tx.inputs.all (fun i => hmContains s.utxos (i.prev_tx, i.index))
  · simp [h]
  · simp [h]

theorem applyTransaction_fail_eq (tx : Transaction) (s : LedgerState)
    (h : (applyTransaction tx s).1 = false) : (applyTransaction tx s).2 = s := by
  rw [applyTransaction] at h ⊢
  by_cases hc : tx.inputs.all (fun i => hmContains s.utxos (i.prev_tx, i.index))
  · simp [hc] at h
  · simp [hc]

theorem hmGet_foldl_remove (ins : List TxInput)
    (m : List ((Nat × Nat) × TxOutput)) (k : Nat × Nat) :
    hmGet (ins.foldl (fun m i => hmRemove (i.prev_tx, i.index) m) m) k =
      if ∃ i ∈ ins, (i.prev_tx, i.index) = k then none else hmGet m k := by
  induction ins generalizing m with
  | nil => simp
  | cons i ins ih =>
    rw [List.foldl_cons, ih]
    by_cases h1 : ∃ j ∈ ins, (j.prev_tx, j.index) = k
    · simp [h1]
    · by_cases h2 : (i.prev_tx, i.index) = k
      · simp [h1, h2, hmGet_hmRemove]
      · have : ¬ ∃ j ∈ i :: ins, (j.prev_tx, j.index) = k := by
          rintro ⟨j, hj, hjk⟩
          rcases List.mem_cons.mp hj with rfl | hj
          · exact h2 hjk
          · exact h1 ⟨j, hj, hjk⟩
        rw [if_neg h1, if_neg this, hmGet_hmRemove]
        have hk : ¬ k = (i.prev_tx, i.index) := fun hk => h2 hk.symm
        rw [if_neg hk]

theorem hmGet_foldl_insert_enumFrom (outs : List TxOutput) (txid : Nat) :
    ∀ (n : Nat) (m : List ((Nat × Nat) × TxOutput)) (j : Nat),
    hmGet ((outs.enumFrom n).foldl
        (fun m io => hmInsert (txid, io.1) io.2 m) m) (txid, j) =
      if n ≤ j ∧ j < n + outs.length then outs.get? (j - n)
      else hmGet m (txid, j) := by
  induction outs with
  | nil =>
    intro n m j
    simp only [List.enumFrom_nil, List.foldl_nil, List.length_nil, Nat.add_zero]
    rw [if_neg (by omega)]
  | cons o outs ih =>
    intro n m j
    simp only [List.enumFrom_cons, List.foldl_cons, List.length_cons]
    rw [ih]
    by_cases h1 : n + 1 ≤ j ∧ j < n + 1 + outs.length
    · have h2 : n ≤ j ∧ j < n + (outs.length + 1) := by omega
      rw [if_pos h1, if_pos h2]
      have hj : j - n = (j - (n + 1)) + 1 := by omega
      rw [hj]
      simp
    · rw [if_neg h1, hmGet_hmInsert]
      by_cases h3 : j = n
      · subst h3
        have h2 : j ≤ j ∧ j < j + (outs.length + 1) := by omega
        simp [h2]
      · have hne : ¬ ((txid, j) = (txid, n)) := by
          simp [h3]
        rw [if_neg hne]
        have h2 : ¬ (n ≤ j ∧ j < n + (outs.length + 1)) := by omega
        rw [if_neg h2]

theorem hmGet_foldl_insert_enumFrom_ne (outs : List TxOutput) (txid : Nat) :
    ∀ (n : Nat) (m : List ((Nat × Nat) × TxOutput)) (k : Nat × Nat),
    k.1 ≠ txid →
    hmGet ((outs.enumFrom n).foldl
        (fun m io => hmInsert (txid, io.1) io.2 m) m) k = hmGet m k := by
  induction outs with
  | nil => intro n m k _; simp
  | cons o outs ih =>
    intro n m k hk
    rw [List.enumFrom_cons, List.foldl_cons, ih _ _ _ hk, hmGet_hmInsert]
    have : ¬ k = (txid, n) := by
      intro h
      exact hk (by rw [h])
    rw [if_neg this]

theorem applyTransaction_succ (tx : Transaction) (s : LedgerState)
    (h : (applyTransaction tx s).1 = true) :
    (applyTransaction tx s).2.utxos =
      (tx.outputs.enumFrom 0).foldl (fun m io => hmInsert (tx.id, io.1) io.2 m)
        (tx.inputs.foldl (fun m i => hmRemove (i.prev_tx, i.index) m)
          s.utxos) := by
  rw [applyTransaction] at h ⊢
  by_cases hc : tx.inputs.all (fun i => hmContains s.utxos (i.prev_tx, i.index))
  · simp only [hc, if_true]
    rfl
  · simp [hc] at h

/-! ## Claims about `apply_transaction` and `apply_block` -/

/-- Claim C10: for every ledger state and every transaction with an empty
inputs list, `apply_transaction` returns `true` and inserts the `i`-th
output at key `(tx.id, i)` — no restriction on amounts or witnesses. -/
theorem claim_C10 (s : LedgerState) (tx : Transaction)
    (h : tx.inputs = []) :
    (applyTransaction tx s).1 = true ∧
    ∀ i, i < tx.outputs.length →
      hmGet (applyTransaction tx s).2.utxos (tx.id, i) = tx.outputs.get? i := by
  have h1 : (applyTransaction tx s).1 = true := by
    rw [applyTransaction, h]
    simp
  refine ⟨h1, fun i hi => ?_⟩
  rw [applyTransaction_succ tx s h1, h]
  simp only [List.foldl_nil]
  rw [hmGet_foldl_insert_enumFrom]
  rw [if_pos (by omega)]
  simp

/-- Witness for C10 at a concrete coinbase transaction. -/
theorem claim_C10_witness :
    coinbaseTx.inputs = [] ∧
    ((applyTransaction coinbaseTx emptyState).1 = true ∧
      ∀ i, i < coinbaseTx.outputs.length →
        hmGet (applyTransaction coinbaseTx emptyState).2.utxos
          (coinbaseTx.id, i) = coinbaseTx.outputs.get? i) :=
  ⟨rfl, claim_C10 emptyState coinbaseTx rfl⟩

/-- Claim C2 (evaluation at the failing input): a transaction that lists the
same `TxInput` twice is *accepted* by `apply_transaction` whenever that
input is present — the membership check of all inputs runs before any
removal, so the duplicate passes and the input is simply removed once.
The specification requires rejection. -/
theorem claim_C2_code_eval :
    (applyTransaction dupTx dupState).1 = true ∧
    hmGet (applyTransaction dupTx dupState).2.utxos (1, 0) = none := by
  decide

/-- Claim C3 is false as stated: `apply_transaction` can return `true` while
an input of the transaction still appears in `utxos` — when the input key
`(7, 0)` coincides with the output key `(tx.id, 0)`, the output insertion
re-creates it. -/
theorem claim_C3_counterexample :
    (applyTransaction selfTx selfState).1 = true ∧
    { prev_tx := 7, index := 0 } ∈ selfTx.inputs ∧
    hmGet (applyTransaction selfTx selfState).2.utxos (7, 0) =
      some { address := "B", amount := 1, assets := none } := by
  decide

/-- Claim C3 amended: if some input is absent, `apply_transaction` returns
`false` and the state is unchanged.  On success, every input *except one
that coincides with an output key `(tx.id, i)`, `i < |outputs|`* is
absent afterwards (such a coinciding key is re-inserted by the output
loop and maps to the new output), and every `(tx.id, i)` for
`i < |outputs|` maps to the `i`-th output. -/
theorem claim_C3_amended (s : LedgerState) (tx : Transaction) :
    ((∃ inp ∈ tx.inputs, hmGet s.utxos (inp.prev_tx, inp.index) = none) →
      applyTransaction tx s = (false, s)) ∧
    ((applyTransaction tx s).1 = true →
      (∀ inp ∈ tx.inputs,
        ¬ (inp.prev_tx = tx.id ∧ inp.index < tx.outputs.length) →
        hmGet (applyTransaction tx s).2.utxos (inp.prev_tx, inp.index) =
          none) ∧
      (∀ i, i < tx.outputs.length →
        hmGet (applyTransaction tx s).2.utxos (tx.id, i) =
          tx.outputs.get? i)) := by
  constructor
  · rintro ⟨inp, hmem, habs⟩
    rw [applyTransaction]
    have hall : ¬ tx.inputs.all
        (fun i => hmContains s.utxos (i.prev_tx, i.index)) = true := by
      rw [List.all_eq_true]
      intro hforall
      have := hforall inp hmem
      rw [hmContains, habs] at this
      simp at this
    simp [hall]
  · intro h
    constructor
    · intro inp hmem hne
      rw [applyTransaction_succ tx s h]
      by_cases hid : inp.prev_tx = tx.id
      · have hidx : ¬ inp.index < tx.outputs.length := fun hlt =>
          hne ⟨hid, hlt⟩
        rw [hid, hmGet_foldl_insert_enumFrom, if_neg (by omega),
          hmGet_foldl_remove, if_pos ⟨inp, hmem, by rw [hid]⟩]
      · rw [hmGet_foldl_insert_enumFrom_ne _ _ _ _ _ (by simpa using hid),
          hmGet_foldl_remove, if_pos ⟨inp, hmem, rfl⟩]
    · intro i hi
      rw [applyTransaction_succ tx s h, hmGet_foldl_insert_enumFrom,
        if_pos (by omega)]
      simp

theorem claim_C3_witness :
    ((applyTransaction spendTx dupState).1 = true →
      (∀ inp ∈ spendTx.inputs,
        ¬ (inp.prev_tx = spendTx.id ∧ inp.index < spendTx.outputs.length) →
        hmGet (applyTransaction spendTx dupState).2.utxos
          (inp.prev_tx, inp.index) = none) ∧
      (∀ i, i < spendTx.outputs.length →
        hmGet (applyTransaction spendTx dupState).2.utxos (spendTx.id, i) =
          spendTx.outputs.get? i)) ∧
    hmGet (applyTransaction spendTx dupState).2.utxos (1, 0) = none :=
  ⟨(claim_C3_amended dupState spendTx).2,
    ((claim_C3_amended dupState spendTx).2 (by decide)).1
      { prev_tx := 1, index := 0 } (by decide) (by decide)⟩

/-- Prefix characterisation of a failed `applyTxs` run: the returned
state is the state after the longest successfully applied prefix, and
the transaction at the failure position fails on that state. -/
theorem applyTxs_fail_prefix (ts : List Transaction) (s : LedgerState)
    (h : (applyTxs ts s).1 = false) :
    ∃ i, i < ts.length ∧
      (applyTxs (ts.take i) s).1 = true ∧
      (applyTxs ts s).2 = (applyTxs (ts.take i) s).2 ∧
      ∃ txf, ts.get? i = some txf ∧
        (applyTransaction txf (applyTxs (ts.take i) s).2).1 = false := by
  induction ts generalizing s with
  | nil => simp [applyTxs] at h
  | cons tx rest ih =>
    rw [applyTxs] at h
    by_cases hr : (applyTransaction tx s).1
    · rw [if_pos hr] at h
      obtain ⟨i, hi, htk, heq, txf, hget, hfail⟩ := ih (applyTransaction tx s).2 h
      refine ⟨i + 1, by simpa using hi, ?_, ?_, txf, by simpa using hget, ?_⟩
      · rw [List.take_succ_cons, applyTxs, if_pos hr]
        exact htk
      · rw [applyTxs, if_pos hr, List.take_succ_cons, applyTxs, if_pos hr]
        exact heq
      · rw [List.take_succ_cons, applyTxs, if_pos hr]
        exact hfail
    · rw [if_neg hr] at h
      have hs : (applyTransaction tx s).2 = s :=
        applyTransaction_fail_eq tx s (by simpa using hr)
      refine ⟨0, by simp, by simp [applyTxs], ?_, tx, rfl, ?_⟩
      · rw [applyTxs, if_neg hr]
        simpa [applyTxs] using hs
      · simpa [applyTxs] using (by simpa using hr : (applyTransaction tx s).1 = false)

/-- Claim C1 amended: `apply_block` is *not* all-or-nothing.  When some
transaction fails, it returns `false` but keeps all changes made by the
transactions before the first failing one: the resulting state is the
state after the longest successful prefix (so it equals the pre-block
state only when the first transaction is the one that fails). -/
theorem claim_C1_amended (b : Block) (s : LedgerState)
    (h : (applyBlock b s).1 = false) :
    ∃ i, i < b.transactions.length ∧
      (applyTxs (b.transactions.take i) s).1 = true ∧
      (applyBlock b s).2 = (applyTxs (b.transactions.take i) s).2 ∧
      ∃ txf, b.transactions.get? i = some txf ∧
        (applyTransaction txf (applyTxs (b.transactions.take i) s).2).1 =
          false :=
  applyTxs_fail_prefix b.transactions s h

/-- Claim C1 is false as stated: `apply_block` returns `false` on `blkC1`
yet the resulting state differs from the pre-block state — the first
transaction's output `(1, 0)` is still present, nothing was rolled
back. -/
theorem claim_C1_counterexample :
    (applyBlock blkC1 emptyState).1 = false ∧
    hmGet (applyBlock blkC1 emptyState).2.utxos (1, 0) =
      some { address := "A", amount := 50, assets := none } ∧
    hmGet emptyState.utxos (1, 0) = none := by
  decide

/-- Witness for the amended C1 at the concrete block `blkC1`. -/
theorem claim_C1_witness :
    ∃ i, i < blkC1.transactions.length ∧
      (applyTxs (blkC1.transactions.take i) emptyState).1 = true ∧
      (applyBlock blkC1 emptyState).2 =
        (applyTxs (blkC1.transactions.take i) emptyState).2 ∧
      ∃ txf, blkC1.transactions.get? i = some txf ∧
        (applyTransaction txf
          (applyTxs (blkC1.transactions.take i) emptyState).2).1 = false :=
  claim_C1_amended blkC1 emptyState (by decide)

/-- Claim C6 is false as stated: `Ledger::validate_block` accepts a block
whose `vrf_proof` is not 32 bytes (it performs no proof-length check at
all — the source leaves it as a `TODO`). -/
theorem claim_C6_counterexample :
    ledgerValidateBlock .conway blkBadProof = true ∧
    blkBadProof.header.vrf_proof.length ≠ 32 ∧
    blkBadProof.header.kes_signature.length ≠ 32 := by
  decide

/-- Claim C6 amended: `Ledger::validate_block` returns `true` exactly when
the slot is nonzero, the leader is non-empty and every transaction passes
`validate_transaction_with_protocol`; it checks no proof lengths.  The
32-byte VRF/KES length checks live in `Consensus::validate_block`, which
in turn checks no transactions. -/
theorem claim_C6_amended (era : EraLogicImpl) (b : Block) :
    (ledgerValidateBlock era b = true ↔
      (b.header.slot ≠ 0 ∧ b.header.leader ≠ "" ∧
        ∀ tx ∈ b.transactions,
          validateTransactionWithProtocol era tx = true)) ∧
    (consensusValidateBlock b = true ↔
      (b.header.slot ≠ 0 ∧ b.header.leader ≠ "" ∧
        b.header.vrf_proof.length = 32 ∧
        b.header.kes_signature.length = 32)) := by
  constructor
  · rw [ledgerValidateBlock]
    by_cases h : b.header.slot = 0 ∨ b.header.leader = ""
    · simp only [if_pos h]
      constructor
      · intro hf
        exact absurd hf (by simp)
      · rintro ⟨h1, h2, _⟩
        rcases h with h | h
        · exact absurd h h1
        · exact absurd h h2
    · rw [if_neg h]
      push_neg at h
      rw [List.all_eq_true]
      constructor
      · intro hall
        exact ⟨h.1, h.2, hall⟩
      · rintro ⟨_, _, hall⟩
        exact hall
  · rw [consensusValidateBlock]
    by_cases h : b.header.slot = 0 ∨ b.header.leader = ""
    · simp only [if_pos h]
      constructor
      · intro hf
        exact absurd hf (by simp)
      · rintro ⟨h1, h2, _⟩
        rcases h with h | h
        · exact absurd h h1
        · exact absurd h h2
    · rw [if_neg h]
      push_neg at h
      by_cases h2 : b.header.vrf_proof.length ≠ 32 ∨
          b.header.kes_signature.length ≠ 32
      · simp only [if_pos h2]
        constructor
        · intro hf
          exact absurd hf (by simp)
        · rintro ⟨_, _, h3, h4⟩
          rcases h2 with h2 | h2
          · exact absurd h3 h2
          · exact absurd h4 h2
      · rw [if_neg h2]
        push_neg at h2
        simp [h.1, h.2, h2.1, h2.2]

/-- Claim C7 is false as stated: `check_transition` performs at most one
transition per call (there is no loop), so with two entries due at the
same epoch a second call advances the era again — `tick` is not
idempotent. -/
theorem claim_C7_counterexample :
    (checkTransition hfcTwo 5).current_era = .shelley ∧
    (checkTransition (checkTransition hfcTwo 5) 5).current_era = .alonzo ∧
    (checkTransition (checkTransition hfcTwo 5) 5).current_era ≠
      (checkTransition hfcTwo 5).current_era := by
  decide

theorem countP_le_one_head {α : Type} (p : α → Bool) (a b : α) (l : List α)
    (h : (a :: b :: l).countP p ≤ 1) (ha : p a = true) : p b = false := by
  by_contra hb
  rw [Bool.not_eq_false] at hb
  rw [List.countP_cons, List.countP_cons, ha, hb] at h
  simp at h

/-- Claim C7 amended: a single `check_transition(e)` call activates at most
the *earliest* scheduled entry (when its epoch is `≤ e`) and removes it;
the call is idempotent precisely in the case where at most one scheduled
entry is due at `e`. -/
theorem claim_C7_amended (s : HardForkCombinator) (e : Nat)
    (hsorted : transSorted s)
    (hone : s.transitions.countP (fun p => p.1 ≤ e) ≤ 1) :
    checkTransition (checkTransition s e) e = checkTransition s e := by
  obtain ⟨ce, tr⟩ := s
  match htr : tr with
  | [] => rfl
  | (epoch, era) :: rest =>
    simp only [htr] at hone
    by_cases hdue : e ≥ epoch
    · have h1 : checkTransition ⟨ce, (epoch, era) :: rest⟩ e =
          ⟨era, rest⟩ := by
        simp [checkTransition, hdue]
      rw [h1]
      match hr : rest with
      | [] => rfl
      | (epoch2, era2) :: rest2 =>
        have hc : ¬ e ≥ epoch2 := by
          have hb := countP_le_one_head _ _ _ _ hone
            (by simp only [decide_eq_true_eq]; omega)
          simp only [decide_eq_false_iff_not] at hb
          omega
        simp [checkTransition, hc]
    · have h1 : checkTransition ⟨ce, (epoch, era) :: rest⟩ e =
          ⟨ce, (epoch, era) :: rest⟩ := by
        simp [checkTransition, hdue]
      rw [h1, h1]

theorem claim_C7_witness :
    transSorted hfcOne ∧
    hfcOne.transitions.countP (fun p => p.1 ≤ 2) ≤ 1 ∧
    checkTransition (checkTransition hfcOne 2) 2 = checkTransition hfcOne 2 :=
  ⟨by simp [transSorted, hfcOne], by decide,
    claim_C7_amended hfcOne 2 (by simp [transSorted, hfcOne]) (by decide)⟩

theorem hmGet_singleton {κ ν : Type} [DecidableEq κ] (k k' : κ) (v : ν) :
    hmGet [(k, v)] k' = if k = k' then some v else none := by
  by_cases h : k = k'
  · simp [hmGet, List.find?_cons_of_pos, h]
  · have : ¬ ((k, v).1 = k') := h
    simp [hmGet, List.find?_cons_of_neg, this, h]

theorem hmGet_map_val {κ ν : Type} [DecidableEq κ] (g : ν → ν)
    (l : List (κ × ν)) (k : κ) :
    hmGet (l.map (fun p => (p.1, g p.2))) k = (hmGet l k).map g := by
  induction l with
  | nil => simp [hmGet]
  | cons p l ih =>
    by_cases hk : p.1 = k
    · simp [hmGet, List.find?_cons_of_pos, hk]
    · have h1 : hmGet ((p.1, g p.2) :: l.map (fun p => (p.1, g p.2))) k =
          hmGet (l.map (fun p => (p.1, g p.2))) k := by
        simp [hmGet, List.find?_cons_of_neg, hk]
      have h2 : hmGet (p :: l) k = hmGet l k := by
        simp [hmGet, List.find?_cons_of_neg, hk]
      simp only [List.map_cons, h1, h2, ih]

theorem mem_keys_of_hmGet {κ ν : Type} [DecidableEq κ]
    (l : List (κ × ν)) (k : κ) (v : ν) (h : hmGet l k = some v) :
    k ∈ l.map Prod.fst := by
  induction l with
  | nil => simp [hmGet] at h
  | cons p l ih =>
    by_cases hk : p.1 = k
    · simp [hk]
    · have h2 : hmGet (p :: l) k = hmGet l k := by
        simp [hmGet, List.find?_cons_of_neg, hk]
      rw [h2] at h
      simp [ih h]

theorem hmGet_filter_nodup {κ ν : Type} [DecidableEq κ] (q : κ × ν → Bool)
    (l : List (κ × ν)) (hn : (l.map Prod.fst).Nodup) (k : κ) (v : ν)
    (h : hmGet (l.filter q) k = some v) :
    hmGet l k = some v ∧ q (k, v) = true := by
  induction l with
  | nil => simp [hmGet] at h
  | cons p l ih =>
    obtain ⟨p1, p2⟩ := p
    rw [List.map_cons, List.nodup_cons] at hn
    by_cases hk : p1 = k
    · subst hk
      by_cases hq : q (p1, p2) = true
      · rw [List.filter_cons_of_pos hq] at h
        have hh : hmGet ((p1, p2) :: l.filter q) p1 = some p2 := by
          simp [hmGet, List.find?_cons_of_pos]
        rw [hh] at h
        injection h with hv
        subst hv
        exact ⟨by simp [hmGet, List.find?_cons_of_pos], hq⟩
      · rw [List.filter_cons_of_neg (by simpa using hq)] at h
        obtain ⟨hl, _⟩ := ih hn.2 h
        exact absurd (mem_keys_of_hmGet l p1 v hl) hn.1
    · have hskip : hmGet ((p1, p2) :: l) k = hmGet l k := by
        simp [hmGet, List.find?_cons_of_neg, hk]
      by_cases hq : q (p1, p2) = true
      · rw [List.filter_cons_of_pos hq] at h
        have hh : hmGet ((p1, p2) :: l.filter q) k = hmGet (l.filter q) k := by
          simp [hmGet, List.find?_cons_of_neg, hk]
        rw [hh] at h
        rw [hskip]
        exact ih hn.2 h
      · rw [List.filter_cons_of_neg (by simpa using hq)] at h
        rw [hskip]
        exact ih hn.2 h

theorem distributeRewards_keeps (r : Nat) (s : LedgerState) :
    (distributeRewards r s).utxos = s.utxos ∧
    (distributeRewards r s).stake_distribution = s.stake_distribution ∧
    (distributeRewards r s).delegations = s.delegations ∧
    (distributeRewards r s).stake_pools = s.stake_pools ∧
    (distributeRewards r s).pool_retirements = s.pool_retirements := by
  rw [distributeRewards]
  by_cases h : (s.stake_distribution.map Prod.snd).sum = 0 ∨ r = 0
  · simp [h]
  · simp [h]

/-- Claim C4 is false as stated: the reachable state `c4s4` (register,
delegate, schedule retirement, process retirements) has
`delegations[d] = p` while `stake_pools[p]` is inactive —
`process_pool_retirements` deactivates pools without touching
`delegations`, so I3 is not an invariant. -/
theorem claim_C4_counterexample :
    applyCertificate (.poolRegistration regP) 0 emptyState = .ok c4s1 ∧
    applyCertificate
      (.delegation { delegator := "d", pool_id := "p" }) 0 c4s1 = .ok c4s2 ∧
    applyCertificate
      (.poolRetirement { pool_id := "p", retirement_epoch := 1 }) 0 c4s2 =
      .ok c4s3 ∧
    processPoolRetirements 1 c4s3 = c4s4 ∧
    hmGet c4s4.delegations "d" = some "p" ∧
    hmGet c4s4.stake_pools "p" = some poolPDead ∧
    ¬ I3active c4s4 := by
  refine ⟨rfl, rfl, rfl, rfl, rfl, rfl, ?_⟩
  intro h
  obtain ⟨pool, hpool, hact⟩ := h "d" "p" rfl
  rw [show hmGet c4s4.stake_pools "p" = some poolPDead from rfl] at hpool
  injection hpool with hp
  rw [← hp] at hact
  rw [show poolPDead.active = false from rfl] at hact
  exact Bool.false_ne_true hact

/-- Claim C4 amended: the implication the code actually preserves is
existence, not activity: whenever `delegations[d] = p`, the pool
`stake_pools[p]` exists.  All four ledger operations preserve it
(`apply_certificate` accepts delegations only to existing active pools,
pools are never deleted, `process_pool_retirements` only flips `active`,
`distribute_rewards` touches only `rewards`, and `apply_transaction`
touches only `utxos`).  Activity itself is destroyed by
`process_pool_retirements`, as the counterexample shows. -/
theorem claim_C4_amended :
    (∀ (cert : Certificate) (epoch : Nat) (s s' : LedgerState),
      applyCertificate cert epoch s = .ok s' → I3exists s → I3exists s') ∧
    (∀ (epoch : Nat) (s : LedgerState),
      I3exists s → I3exists (processPoolRetirements epoch s)) ∧
    (∀ (r : Nat) (s : LedgerState),
      I3exists s → I3exists (distributeRewards r s)) ∧
    (∀ (tx : Transaction) (s : LedgerState),
      I3exists s → I3exists (applyTransaction tx s).2) := by
  refine ⟨?_, ?_, ?_, ?_⟩
  · intro cert epoch s s' hok h
    cases cert with
    | poolRegistration reg =>
      rw [applyCertificate] at hok
      injection hok with hs'
      subst hs'
      intro d p hd
      have hold := h d p hd
      rw [hmGet_hmInsert]
      by_cases hp : p = reg.pool_id
      · simp [hp]
      · rw [if_neg hp]
        exact hold
    | poolRetirement ret =>
      rw [applyCertificate] at hok
      split at hok
      · split at hok
        · injection hok with hs'
          subst hs'
          intro d p hd
          have hold := h d p hd
          rw [hmGet_hmInsert]
          by_cases hp : p = ret.pool_id
          · simp [hp]
          · rw [if_neg hp]
            exact hold
        · exact absurd hok (by simp)
      · exact absurd hok (by simp)
    | delegation deleg =>
      rw [applyCertificate] at hok
      split at hok
      case _ pool hg =>
        split at hok
        · injection hok with hs'
          subst hs'
          intro d p hd
          rw [hmGet_hmInsert] at hd
          by_cases hdd : d = deleg.delegator
          · rw [if_pos hdd] at hd
            injection hd with hp
            rw [← hp, hg]
            rfl
          · rw [if_neg hdd] at hd
            exact h d p hd
        · exact absurd hok (by simp)
      case _ hg => exact absurd hok (by simp)
  · intro epoch s h d p hd
    have hold := h d p hd
    show (hmGet (s.stake_pools.map
      (fun p => (p.1, retirePool epoch p.2))) p).isSome = true
    rw [hmGet_map_val]
    rcases hg : hmGet s.stake_pools p with _ | pool
    · rw [hg] at hold
      simp at hold
    · simp
  · intro r s h d p hd
    have hk := distributeRewards_keeps r s
    rw [show (distributeRewards r s).delegations = s.delegations
      from hk.2.2.1] at hd
    rw [show (distributeRewards r s).stake_pools = s.stake_pools
      from hk.2.2.2.1]
    exact h d p hd
  · intro tx s h d p hd
    have hk := applyTransaction_keeps_staking tx s
    rw [show (applyTransaction tx s).2.delegations = s.delegations
      from hk.2.1] at hd
    rw [show (applyTransaction tx s).2.stake_pools = s.stake_pools
      from hk.2.2.1]
    exact h d p hd

/-- Witness for the amended C4 at concrete reachable states. -/
theorem claim_C4_witness :
    I3exists c4s2 ∧ I3exists (processPoolRetirements 0 c4s2) ∧
    I3exists (distributeRewards 5 c4s2) ∧
    I3exists (applyTransaction coinbaseTx c4s2).2 := by
  have h1 : I3exists c4s1 := by
    intro d p hd
    rw [show hmGet c4s1.delegations d = none from rfl] at hd
    exact absurd hd (by simp)
  have h2 : I3exists c4s2 :=
    claim_C4_amended.1 (.delegation { delegator := "d", pool_id := "p" })
      0 c4s1 c4s2 rfl h1
  exact ⟨h2, claim_C4_amended.2.1 0 c4s2 h2,
    claim_C4_amended.2.2.1 5 c4s2 h2,
    claim_C4_amended.2.2.2 coinbaseTx c4s2 h2⟩

/-- Claim C5 is false as stated: re-registering a pool with a pending
scheduled retirement resets `stake_pools[p].retirement_epoch` to `None`
while leaving `pool_retirements[p] = 5` in place, breaking I4. -/
theorem claim_C5_counterexample :
    applyCertificate
      (.poolRetirement { pool_id := "p", retirement_epoch := 5 }) 0 c4s1 =
      .ok c5s2 ∧
    applyCertificate (.poolRegistration regP) 0 c5s2 = .ok c5s3 ∧
    hmGet c5s3.pool_retirements "p" = some 5 ∧
    hmGet c5s3.stake_pools "p" = some poolP ∧
    ¬ I4spec c5s3 := by
  refine ⟨rfl, rfl, rfl, rfl, ?_⟩
  intro h
  obtain ⟨pool, hpool, hre⟩ := h "p" 5 rfl
  rw [show hmGet c5s3.stake_pools "p" = some poolP from rfl] at hpool
  injection hpool with hp
  rw [← hp] at hre
  rw [show poolP.retirement_epoch = none from rfl] at hre
  exact Option.noConfusion hre

/-- Claim C5 amended: I4 is preserved by `apply_certificate` *except* when
the certificate is a `PoolRegistration` for a pool that already has an
entry in `pool_retirements` (that upsert resets `retirement_epoch` to
`None` without clearing `pool_retirements`, as the counterexample
shows), and by `process_pool_retirements` (for any map without duplicate
keys, which `HashMap` guarantees). -/
theorem claim_C5_amended :
    (∀ (cert : Certificate) (epoch : Nat) (s s' : LedgerState),
      applyCertificate cert epoch s = .ok s' → I4spec s →
      (∀ reg, cert = .poolRegistration reg →
        hmGet s.pool_retirements reg.pool_id = none) →
      I4spec s') ∧
    (∀ (epoch : Nat) (s : LedgerState),
      (s.pool_retirements.map Prod.fst).Nodup →
      I4spec s → I4spec (processPoolRetirements epoch s)) := by
  constructor
  · intro cert epoch s s' hok h hnone
    cases cert with
    | poolRegistration reg =>
      rw [applyCertificate] at hok
      injection hok with hs'
      subst hs'
      intro p e hret
      by_cases hp : p = reg.pool_id
      · rw [hp, hnone reg rfl] at hret
        exact Option.noConfusion hret
      · obtain ⟨pool, hpool, hre⟩ := h p e hret
        refine ⟨pool, ?_, hre⟩
        rw [hmGet_hmInsert, if_neg hp]
        exact hpool
    | poolRetirement ret =>
      rw [applyCertificate] at hok
      split at hok
      case _ pool hg =>
        split at hok
        case _ hcond =>
          injection hok with hs'
          subst hs'
          intro p e hret
          rw [hmGet_hmInsert] at hret
          by_cases hp : p = ret.pool_id
          · rw [if_pos hp] at hret
            injection hret with he
            refine ⟨{ pool with retirement_epoch := some ret.retirement_epoch },
              ?_, by rw [← he]⟩
            rw [hp, hmGet_hmInsert, if_pos rfl]
          · rw [if_neg hp] at hret
            obtain ⟨pool', hpool', hre'⟩ := h p e hret
            refine ⟨pool', ?_, hre'⟩
            rw [hmGet_hmInsert, if_neg hp]
            exact hpool'
        case _ => exact absurd hok (by simp)
      case _ hg => exact absurd hok (by simp)
    | delegation deleg =>
      rw [applyCertificate] at hok
      split at hok
      case _ pool hg =>
        split at hok
        case _ =>
          injection hok with hs'
          subst hs'
          intro p e hret
          exact h p e hret
        case _ => exact absurd hok (by simp)
      case _ hg => exact absurd hok (by simp)
  · intro epoch s hn h p e hret
    have hfl := hmGet_filter_nodup _ s.pool_retirements hn p e hret
    obtain ⟨pool, hpool, hre⟩ := h p e hfl.1
    refine ⟨retirePool epoch pool, ?_, ?_⟩
    · show hmGet (s.stake_pools.map
        (fun q => (q.1, retirePool epoch q.2))) p = _
      rw [hmGet_map_val, hpool]
      rfl
    · rw [retirePool, hre]
      by_cases hle : e ≤ epoch
      · simp [hle]
      · simp [hle, hre]

/-- Witness for the amended C5 at concrete states. -/
theorem claim_C5_witness :
    I4spec c5s2 ∧ I4spec (processPoolRetirements 0 c5s2) := by
  have h1 : I4spec c4s1 := by
    intro p e hret
    rw [show hmGet c4s1.pool_retirements p = none from rfl] at hret
    exact Option.noConfusion hret
  have h2 : I4spec c5s2 :=
    claim_C5_amended.1
      (.poolRetirement { pool_id := "p", retirement_epoch := 5 }) 0 c4s1
      c5s2 rfl h1 (fun reg hreg => Certificate.noConfusion hreg)
  exact ⟨h2, claim_C5_amended.2 0 c5s2 (by simp [c5s2]) h2⟩

theorem chainCmp_gt_iff (a b : Chain) :
    chainCmp a b = .gt ↔ specLt b a := by
  rw [chainCmp, specLt]
  by_cases h1 : a.blocks.length ≠ b.blocks.length
  · rw [if_pos h1, Nat.compare_eq_gt]
    omega
  · rw [if_neg h1]
    by_cases h2 : chainDensity a ≠ chainDensity b
    · rw [if_pos h2, Nat.compare_eq_gt]
      omega
    · rw [if_neg h2]
      by_cases h3 : chainTxs a ≠ chainTxs b
      · rw [if_pos h3, Nat.compare_eq_gt]
        omega
      · rw [if_neg h3, Nat.compare_eq_gt]
        omega

theorem chainCmp_not_gt_iff (a b : Chain) :
    ¬ chainCmp a b = .gt ↔ specLe a b := by
  rw [chainCmp, specLe, specLt]
  by_cases h1 : a.blocks.length ≠ b.blocks.length
  · rw [if_pos h1, Nat.compare_eq_gt]
    omega
  · rw [if_neg h1]
    by_cases h2 : chainDensity a ≠ chainDensity b
    · rw [if_pos h2, Nat.compare_eq_gt]
      omega
    · rw [if_neg h2]
      by_cases h3 : chainTxs a ≠ chainTxs b
      · rw [if_pos h3, Nat.compare_eq_gt]
        omega
      · rw [if_neg h3, Nat.compare_eq_gt]
        omega

theorem specLe_refl (a : Chain) : specLe a a := by
  rw [specLe]
  omega

theorem specLe_trans (a b c : Chain) (h1 : specLe a b) (h2 : specLe b c) :
    specLe a c := by
  rw [specLe, specLt] at h1 h2 ⊢
  omega

theorem specLt_le (a b : Chain) (h : specLt a b) : specLe a b := Or.inl h

theorem selectChain_aux (cs : List Chain) (a : Chain) :
    ∃ c, cs.foldl (fun acc x =>
        match acc with
        | none => some x
        | some a => if chainCmp a x = .gt then some a else some x) (some a) =
        some c ∧
      (c = a ∨ c ∈ cs) ∧ specLe a c ∧ ∀ x ∈ cs, specLe x c := by
  induction cs generalizing a with
  | nil => exact ⟨a, rfl, Or.inl rfl, specLe_refl a, by simp⟩
  | cons x cs ih =>
    rw [List.foldl_cons]
    by_cases hg : chainCmp a x = .gt
    · have hstep : (match some a with
          | none => some x
          | some a => if chainCmp a x = .gt then some a else some x) =
          some a := by
        simp [hg]
      rw [hstep]
      obtain ⟨c, hc, hmem, hle, hall⟩ := ih a
      refine ⟨c, hc, ?_, hle, ?_⟩
      · rcases hmem with h | h
        · exact Or.inl h
        · exact Or.inr (List.mem_cons_of_mem x h)
      · intro y hy
        rcases List.mem_cons.mp hy with rfl | hy
        · exact specLe_trans y a c
            (specLt_le y a ((chainCmp_gt_iff a y).mp hg)) hle
        · exact hall y hy
    · have hstep : (match some a with
          | none => some x
          | some a => if chainCmp a x = .gt then some a else some x) =
          some x := by
        simp [hg]
      rw [hstep]
      obtain ⟨c, hc, hmem, hle, hall⟩ := ih x
      have hax : specLe a x := (chainCmp_not_gt_iff a x).mp hg
      refine ⟨c, hc, ?_, specLe_trans a x c hax hle, ?_⟩
      · rcases hmem with h | h
        · exact Or.inr (h ▸ List.mem_cons_self x cs)
        · exact Or.inr (List.mem_cons_of_mem x h)
      · intro y hy
        rcases List.mem_cons.mp hy with rfl | hy
        · exact hle
        · exact hall y hy

/-- Claim C8: `select_chain` returns `none` on the empty list, and on a
non-empty list returns a member chain that is maximal under the
specification's lexicographic order (block count, then unique-id count,
then total transactions, then lower tip id). -/
theorem claim_C8 :
    selectChain [] = none ∧
    ∀ (cs : List Chain), cs ≠ [] →
      ∃ c, selectChain cs = some c ∧ c ∈ cs ∧ ∀ x ∈ cs, specLe x c := by
  refine ⟨rfl, ?_⟩
  intro cs hne
  match cs with
  | [] => exact absurd rfl hne
  | x :: rest =>
    rw [selectChain, List.foldl_cons]
    obtain ⟨c, hc, hmem, hle, hall⟩ := selectChain_aux rest x
    refine ⟨c, hc, ?_, ?_⟩
    · rcases hmem with h | h
      · exact h ▸ List.mem_cons_self x rest
      · exact List.mem_cons_of_mem x h
    · intro y hy
      rcases List.mem_cons.mp hy with rfl | hy
      · exact hle
      · exact hall y hy

theorem digitChar_props {d : Nat} (hd : d < 10) :
    (Nat.digitChar d).isDigit = true ∧ Nat.digitChar d ≠ '_' ∧
    Nat.digitChar d ≠ '.' ∧ Nat.digitChar d ≠ '+' ∧
    Nat.digitChar d ≠ 'b' ∧ Nat.digitChar d ≠ 's' ∧
    Nat.digitChar d ≠ 'n' ∧ (Nat.digitChar d).toNat = 48 + d := by
  interval_cases d <;> exact ⟨by decide, by decide, by decide, by decide,
    by decide, by decide, by decide, by decide⟩

theorem natChars_ne_nil (n : Nat) : natChars n ≠ [] := by
  rw [natChars]
  by_cases h : n = 0
  · simp [h]
  · rw [if_neg h]
    simp only [ne_eq, List.reverse_eq_nil_iff, List.map_eq_nil_iff]
    exact Nat.digits_ne_nil_iff_ne_zero.mpr h

theorem natChars_props (n : Nat) :
    ∀ c ∈ natChars n, c.isDigit = true ∧ c ≠ '_' ∧ c ≠ '.' ∧ c ≠ '+' ∧
      c ≠ 'b' ∧ c ≠ 's' ∧ c ≠ 'n' := by
  intro c hc
  rw [natChars] at hc
  by_cases h : n = 0
  · rw [if_pos h] at hc
    rcases List.mem_singleton.mp hc with rfl
    exact ⟨by decide, by decide, by decide, by decide, by decide,
      by decide, by decide⟩
  · rw [if_neg h] at hc
    rw [List.mem_reverse] at hc
    obtain ⟨d, hd, rfl⟩ := List.mem_map.mp hc
    have hlt : d < 10 := Nat.digits_lt_base (by norm_num) hd
    have hp := digitChar_props hlt
    exact ⟨hp.1, hp.2.1, hp.2.2.1, hp.2.2.2.1, hp.2.2.2.2.1,
      hp.2.2.2.2.2.1, hp.2.2.2.2.2.2.1⟩

theorem digitsVal_append (l : List Char) (c : Char) :
    digitsVal (l ++ [c]) = digitsVal l * 10 + (c.toNat - 48) := by
  rw [digitsVal, digitsVal, List.foldl_append, List.foldl_cons,
    List.foldl_nil]

theorem digitsVal_digits (n : Nat) (hn : n ≠ 0) :
    digitsVal (((Nat.digits 10 n).map Nat.digitChar).reverse) = n := by
  induction n using Nat.strong_induction_on with
  | _ n ih =>
    rw [Nat.digits_def' (by norm_num : 1 < 10) (Nat.pos_of_ne_zero hn),
      List.map_cons, List.reverse_cons, digitsVal_append]
    have h10 : n % 10 < 10 := Nat.mod_lt _ (by norm_num)
    rw [(digitChar_props h10).2.2.2.2.2.2.2]
    by_cases h0 : n / 10 = 0
    · rw [h0, Nat.digits_zero, List.map_nil, List.reverse_nil]
      have hz : digitsVal [] = 0 := rfl
      rw [hz]
      omega
    · rw [ih (n / 10) (Nat.div_lt_self (Nat.pos_of_ne_zero hn)
        (by norm_num)) h0]
      omega

theorem digitsVal_natChars (n : Nat) : digitsVal (natChars n) = n := by
  rw [natChars]
  by_cases h : n = 0
  · rw [if_pos h, h]
    rfl
  · rw [if_neg h]
    exact digitsVal_digits n h

theorem parseU64_natChars (n : Nat) (hn : n < 2 ^ 64) :
    parseU64 (natChars n) = some n := by
  have hne := natChars_ne_nil n
  have hall := natChars_props n
  have hhead : ¬ (natChars n).head? = some '+' := by
    cases hcn : natChars n with
    | nil => exact absurd hcn hne
    | cons c rest =>
      have hc := (hall c (by rw [hcn]; exact List.mem_cons_self c rest)).2.2.2.1
      simp only [List.head?, Option.some.injEq]
      intro hcc
      exact hc hcc
  rw [parseU64]
  simp only [if_neg hhead]
  rw [if_pos ⟨hne, List.all_eq_true.mpr (fun c hc => (hall c hc).1),
    by rw [digitsVal_natChars]; exact hn⟩, digitsVal_natChars]

theorem splitOnChar_ne_nil (c : Char) (l : List Char) :
    splitOnChar c l ≠ [] := by
  cases l with
  | nil => simp [splitOnChar]
  | cons x xs =>
    rw [splitOnChar]
    cases splitOnChar c xs with
    | nil => by_cases h : x = c <;> simp [h]
    | cons h t => by_cases hx : x = c <;> simp [hx]

theorem splitOnChar_not_mem (c : Char) (l : List Char) (h : c ∉ l) :
    splitOnChar c l = [l] := by
  induction l with
  | nil => rfl
  | cons x xs ih =>
    have hx : ¬ x = c := fun he => h (he ▸ List.mem_cons_self x xs)
    have hxs : c ∉ xs := fun hm => h (List.mem_cons_of_mem _ hm)
    rw [splitOnChar, ih hxs]
    simp [hx]

theorem splitOnChar_sep (c : Char) (l₁ l₂ : List Char) (h1 : c ∉ l₁) :
    splitOnChar c (l₁ ++ c :: l₂) = l₁ :: splitOnChar c l₂ := by
  induction l₁ with
  | nil =>
    rw [List.nil_append, splitOnChar]
    cases hs : splitOnChar c l₂ with
    | nil => exact absurd hs (splitOnChar_ne_nil c l₂)
    | cons h t => simp
  | cons x xs ih =>
    have hx : ¬ x = c := fun he => h1 (he ▸ List.mem_cons_self x xs)
    have hxs : c ∉ xs := fun hm => h1 (List.mem_cons_of_mem _ hm)
    rw [List.cons_append, splitOnChar, ih hxs]
    simp [hx]

theorem isPrefixOf_false_of_head (a b : Char) (as bs : List Char)
    (h : ¬ a = b) : (a :: as).isPrefixOf (b :: bs) = false := by
  simp [List.isPrefixOf, h]

theorem trimStartAux_no (pat : List Char) (fuel : Nat) (l : List Char)
    (h : ¬ (pat.isPrefixOf l = true ∧ pat ≠ [])) :
    trimStartAux pat fuel l = l := by
  cases fuel with
  | zero => rfl
  | succ fuel => rw [trimStartAux, if_neg h]

theorem trimStartAux_fuel (pat : List Char) (hp : pat ≠ []) :
    ∀ (fuel : Nat) (l : List Char), l.length ≤ fuel →
      trimStartAux pat fuel l = trimStartAux pat l.length l := by
  intro fuel
  induction fuel using Nat.strong_induction_on with
  | _ fuel ih =>
    intro l hl
    match fuel with
    | 0 =>
      have hz : l.length = 0 := by omega
      rw [hz]
    | f + 1 =>
      by_cases hcond : pat.isPrefixOf l = true ∧ pat ≠ []
      · have hple : pat.length ≤ l.length :=
          (List.isPrefixOf_iff_prefix.mp hcond.1).length_le
        have hppos : 0 < pat.length := List.length_pos.mpr hp
        have hdrop : (l.drop pat.length).length = l.length - pat.length :=
          List.length_drop _ _
        rw [trimStartAux, if_pos hcond,
          ih f (by omega) _ (by rw [hdrop]; omega)]
        obtain ⟨m, hm⟩ : ∃ m, l.length = m + 1 := ⟨l.length - 1, by omega⟩
        rw [hm, trimStartAux, if_pos hcond,
          ih m (by omega) _ (by rw [hdrop]; omega)]
      · rw [trimStartAux_no pat _ l hcond, trimStartAux_no pat _ l hcond]

theorem trimStart_no (pat l : List Char)
    (h : ¬ (pat.isPrefixOf l = true ∧ pat ≠ [])) :
    trimStartMatches pat l = l :=
  trimStartAux_no pat l.length l h

theorem trimStart_step (pat r : List Char) (hp : pat ≠ []) :
    trimStartMatches pat (pat ++ r) = trimStartMatches pat r := by
  have hppos : 0 < pat.length := List.length_pos.mpr hp
  rw [trimStartMatches]
  obtain ⟨m, hm⟩ : ∃ m, (pat ++ r).length = m + 1 := by
    refine ⟨(pat ++ r).length - 1, ?_⟩
    rw [List.length_append]
    omega
  rw [hm, trimStartAux, if_pos ⟨List.isPrefixOf_iff_prefix.mpr ⟨r, rfl⟩, hp⟩,
    List.drop_left]
  rw [List.length_append] at hm
  exact trimStartAux_fuel pat hp m r (by omega)

theorem trimEnd_natChars (n : Nat) :
    trimEndMatches jsonSuf (natChars n ++ jsonSuf) = natChars n := by
  rw [trimEndMatches, List.reverse_append, trimStart_step _ _ (by decide)]
  have hnp : ¬ (jsonSuf.reverse.isPrefixOf (natChars n).reverse = true ∧
      jsonSuf.reverse ≠ []) := by
    rintro ⟨hpre, -⟩
    cases hcn : (natChars n).reverse with
    | nil =>
      rw [hcn] at hpre
      rw [show jsonSuf.reverse = 'n' :: ['o', 's', 'j', '.'] from by decide]
        at hpre
      exact Bool.false_ne_true hpre
    | cons c rest =>
      have hc : c ∈ natChars n := by
        rw [← List.mem_reverse, hcn]
        exact List.mem_cons_self c rest
      have hcne := (natChars_props n c hc).2.2.2.2.2.2
      rw [hcn, show jsonSuf.reverse = 'n' :: ['o', 's', 'j', '.'] from
        by decide, isPrefixOf_false_of_head _ _ _ _
          (fun he => hcne he.symm)] at hpre
      exact Bool.false_ne_true hpre
  rw [trimStart_no _ _ hnp, List.reverse_reverse]

theorem rollbackNum_parts (pre5 : List Char) (n : Nat) (hn : n < 2 ^ 64)
    (hp : '_' ∉ pre5) :
    rollbackNum (pre5 ++ '_' :: (natChars n ++ jsonSuf)) = some n := by
  rw [rollbackNum, splitOnChar_sep _ _ _ hp]
  have hnm : '_' ∉ natChars n ++ jsonSuf := by
    intro hm
    rcases List.mem_append.mp hm with hm | hm
    · exact (natChars_props n _ hm).2.1 rfl
    · rw [show jsonSuf = ['.', 'j', 's', 'o', 'n'] from rfl] at hm
      simp at hm
  rw [splitOnChar_not_mem _ _ hnm]
  have hdot : '.' ∉ natChars n := fun hm => (natChars_props n _ hm).2.2.1 rfl
  have hsp : splitOnChar '.' (natChars n ++ jsonSuf) =
      natChars n :: splitOnChar '.' ['j', 's', 'o', 'n'] :=
    splitOnChar_sep '.' (natChars n) ['j', 's', 'o', 'n'] hdot
  simp only [List.get?_cons_succ, List.get?_cons_zero, hsp, List.headD]
  exact parseU64_natChars n hn

theorem rollbackNum_dbFname (b : Bool) (n : Nat) (hn : n < 2 ^ 64) :
    rollbackNum (dbFname b n) = some n := by
  cases b
  · rw [show dbFname false n =
      ['s', 't', 'a', 't', 'e'] ++ '_' :: (natChars n ++ jsonSuf) from by
        rw [dbFname, if_neg (by decide), statePre, List.append_assoc]
        rfl]
    exact rollbackNum_parts _ n hn (by decide)
  · rw [show dbFname true n =
      ['b', 'l', 'o', 'c', 'k'] ++ '_' :: (natChars n ++ jsonSuf) from by
        rw [dbFname, if_pos rfl, blockPre, List.append_assoc]
        rfl]
    exact rollbackNum_parts _ n hn (by decide)

theorem blockIdNum_block (n : Nat) (hn : n < 2 ^ 64) :
    blockIdNum (dbFname true n) = some n := by
  have hshape : dbFname true n = blockPre ++ (natChars n ++ jsonSuf) := by
    rw [dbFname, if_pos rfl, List.append_assoc]
  rw [blockIdNum]
  have hpre : blockPre.isPrefixOf (dbFname true n) = true := by
    rw [hshape]
    exact List.isPrefixOf_iff_prefix.mpr ⟨natChars n ++ jsonSuf, rfl⟩
  have hsuf : jsonSuf.isSuffixOf (dbFname true n) = true := by
    rw [List.isSuffixOf_iff_suffix, dbFname, if_pos rfl]
    exact ⟨blockPre ++ natChars n, by rw [List.append_assoc]⟩
  rw [if_pos ⟨hpre, hsuf⟩, hshape, trimStart_step _ _ (by decide)]
  have hnp : ¬ (blockPre.isPrefixOf (natChars n ++ jsonSuf) = true ∧
      blockPre ≠ []) := by
    rintro ⟨hpre2, -⟩
    cases hcn : natChars n with
    | nil => exact natChars_ne_nil n hcn
    | cons c rest =>
      have hc : c ∈ natChars n := by
        rw [hcn]
        exact List.mem_cons_self c rest
      have hcne := (natChars_props n c hc).2.2.2.2.1
      rw [hcn, List.cons_append, show blockPre = 'b' :: ['l', 'o', 'c', 'k', '_']
        from rfl, isPrefixOf_false_of_head _ _ _ _
          (fun he => hcne he.symm)] at hpre2
      exact Bool.false_ne_true hpre2
  rw [trimStart_no _ _ hnp, trimEnd_natChars]
  exact parseU64_natChars n hn

theorem blockIdNum_state (n : Nat) :
    blockIdNum (dbFname false n) = none := by
  rw [blockIdNum, if_neg]
  rintro ⟨hp, -⟩
  rw [show dbFname false n =
      's' :: (['t', 'a', 't', 'e', '_'] ++ natChars n ++ jsonSuf) from by
        rw [dbFname, if_neg (by decide), statePre]
        simp [List.append_assoc],
    show blockPre = 'b' :: ['l', 'o', 'c', 'k', '_'] from rfl,
    isPrefixOf_false_of_head _ _ _ _ (by decide)] at hp
  exact Bool.false_ne_true hp

theorem rollback_filterMap (k : Nat) (files : List (List Char))
    (h : ∀ f ∈ files, ∃ b n, n < 2 ^ 64 ∧ f = dbFname b n) :
    (rollbackTo k files).filterMap blockIdNum =
      ((files.filterMap blockIdNum).filter (fun n => n ≤ k)) := by
  induction files with
  | nil => rfl
  | cons f fs ih =>
    obtain ⟨b, n, hn, rfl⟩ := h f (List.mem_cons_self f fs)
    have hrest := ih (fun g hg => h g (List.mem_cons_of_mem _ hg))
    rw [rollbackTo] at hrest ⊢
    cases b
    · -- state file: parsed by rollback, invisible to block_ids
      by_cases hk : n ≤ k
      · rw [List.filter_cons_of_pos
          (by rw [rollbackNum_dbFname false n hn]; simp; omega)]
        rw [List.filterMap_cons_none (blockIdNum_state n),
          List.filterMap_cons_none (blockIdNum_state n)]
        exact hrest
      · rw [List.filter_cons_of_neg
          (by rw [rollbackNum_dbFname false n hn]; simp; omega)]
        rw [List.filterMap_cons_none (blockIdNum_state n)]
        exact hrest
    · -- block file: removed by rollback iff its id exceeds k
      by_cases hk : n ≤ k
      · rw [List.filter_cons_of_pos
          (by rw [rollbackNum_dbFname true n hn]; simp; omega)]
        rw [List.filterMap_cons_some (blockIdNum_block n hn),
          List.filterMap_cons_some (blockIdNum_block n hn),
          List.filter_cons_of_pos (by simpa using hk), hrest]
      · rw [List.filter_cons_of_neg
          (by rw [rollbackNum_dbFname true n hn]; simp; omega)]
        rw [List.filterMap_cons_some (blockIdNum_block n hn),
          List.filter_cons_of_neg (by simpa using hk)]
        exact hrest

theorem insertionSort_filter (l : List Nat) (p : Nat → Bool) :
    (l.filter p).insertionSort (· ≤ ·) =
      (l.insertionSort (· ≤ ·)).filter p := by
  refine @List.eq_of_perm_of_sorted Nat (· ≤ ·) _ _ _ ?_ ?_ ?_
  · exact (List.perm_insertionSort _ _).trans
      ((List.perm_insertionSort _ l).symm.filter p)
  · exact List.sorted_insertionSort _ _
  · exact (List.sorted_insertionSort _ l).filter p

/-- Claim C9 amended: for every store whose files are the canonical
`block_{n}.json` / `state_{n}.json` names written by `append_block`,
`block_ids()` after `rollback_to(k)` lists exactly the block ids `≤ k`
that were present before.  (For non-canonical names the claim fails, see
the counterexample: `block_ids` double-strips prefixes that
`rollback_to` does not.) -/
theorem claim_C9_amended (files : List (List Char)) (k : Nat)
    (h : ∀ f ∈ files, ∃ b n, n < 2 ^ 64 ∧ f = dbFname b n) :
    blockIds (rollbackTo k files) =
      (blockIds files).filter (fun n => n ≤ k) := by
  rw [blockIds, blockIds, rollback_filterMap k files h, insertionSort_filter]

/-- Claim C9 is false as stated: after `rollback_to(3)` on a store holding
`block_block_7.json`, `block_ids()` still reports id 7 > 3 — the file
counts as a block file for `block_ids` but is not removed by
`rollback_to`. -/
theorem claim_C9_counterexample :
    blockIds [weirdFile] = [7] ∧
    rollbackTo 3 [weirdFile] = [weirdFile] ∧
    blockIds (rollbackTo 3 [weirdFile]) = [7] ∧
    ¬ (7 ≤ 3) := by
  refine ⟨by decide, by decide, by decide, by decide⟩

/-- Witness for the amended C9 on a concrete canonical store. -/
theorem claim_C9_witness :
    (∀ f ∈ storeW, ∃ b n, n < 2 ^ 64 ∧ f = dbFname b n) ∧
    blockIds (rollbackTo 2 storeW) =
      (blockIds storeW).filter (fun n => n ≤ 2) := by
  have h : ∀ f ∈ storeW, ∃ b n, n < 2 ^ 64 ∧ f = dbFname b n := by
    intro f hf
    rw [storeW] at hf
    rcases List.mem_cons.mp hf with rfl | hf
    · exact ⟨true, 1, by norm_num, rfl⟩
    rcases List.mem_cons.mp hf with rfl | hf
    · exact ⟨false, 2, by norm_num, rfl⟩
    rcases List.mem_cons.mp hf with rfl | hf
    · exact ⟨true, 3, by norm_num, rfl⟩
    · exact absurd hf (List.not_mem_nil f)
  exact ⟨h, claim_C9_amended storeW 2 h⟩

/-- Witness for C8 on a concrete non-empty list of candidates. -/
theorem claim_C8_witness :
    ([{ blocks := [] }, chainB2] : List Chain) ≠ [] ∧
    ∃ c, selectChain [{ blocks := [] }, chainB2] = some c ∧
      c ∈ [{ blocks := ([] : List Block) }, chainB2] ∧
      ∀ x ∈ [{ blocks := ([] : List Block) }, chainB2], specLe x c :=
  ⟨by simp, claim_C8.2 [{ blocks := [] }, chainB2] (by simp)⟩

end SuperCardano

